import Mathlib

/-!
Verification of the punch-card logging tool (two source variants:
`打卡工具/script.js` and an unnamed near-duplicate with per-entry delete
and clear-all support).

The state of the program lives in a single localStorage key `punchData`
holding a JSON-serialized array of `{text, date}` objects.  We embed:

* the data model (`Entry`, `Log`);
* the platform functions the code calls: `JSON.stringify` on an entry
  array (printer), `JSON.parse` (a JSON parser over `List Char` with
  explicit fuel), and `String.prototype.trim` (ECMAScript whitespace);
* the functions of each variant (`getPunchData`, `savePunchData`,
  `renderPunchList`, the submit / export / delete / clear-all handlers),
  translated from its own source file, in namespaces `VarA`
  (`打卡工具/script.js`) and `VarB` (the richer unnamed variant).

Handlers are modelled at the `Log` level (the persisted value is a valid
entry array per the storage invariant); the storage accessor is modelled
at the raw-string level, where truthiness of the raw value matters.
-/

/-- One punch record: `{ text, date }`. -/
structure Entry where
  text : String
  date : String
deriving DecidableEq, Repr

/-- The persisted log: ordered list of entries, oldest first. -/
abbrev Log := List Entry

/-! ## ECMAScript `String.prototype.trim`

JS trims the WhiteSpace and LineTerminator productions: TAB, LF, VT, FF,
CR, SP, NBSP, ZWNBSP, the Zs category, LS and PS. -/

/-- Characters removed by `String.prototype.trim`. -/
def isJsWhitespace (c : Char) : Bool :=
  c == '\x09' || c == '\x0a' || c == '\x0b' || c == '\x0c' || c == '\x0d' ||
  c == ' ' || c == '\u00a0' || c == '\u1680' ||
  ('\u2000' ≤ c && c ≤ '\u200a') ||
  c == '\u2028' || c == '\u2029' || c == '\u202f' || c == '\u205f' ||
  c == '\u3000' || c == '\ufeff'

/-- Model of `value.trim()`: drop JS whitespace from both ends. -/
def jsTrim (s : String) : String :=
  ⟨((s.data.dropWhile isJsWhitespace).reverse.dropWhile isJsWhitespace).reverse⟩

/-! ## JSON values

Model of the values `JSON.parse` can return.  Numbers keep their literal
text (the code never computes with parsed numbers, so the literal is
enough to state what the parser accepts). -/

/-- A parsed JSON value. -/
inductive Json where
  | null : Json
  | bool (b : Bool) : Json
  | num (lit : String) : Json
  | str (s : String) : Json
  | arr (elems : List Json) : Json
  | obj (members : List (String × Json)) : Json

/-! ## `JSON.stringify` on an entry array

`JSON.stringify` of a JS string escapes `"`, `\` and the control
characters below 0x20 (short escapes for BS, TAB, LF, FF, CR, otherwise
`\u00XX` with lowercase hex); keys of `{ text, date }` serialize in
insertion order with no added whitespace. -/

/-- Lowercase hex digit for `n < 16`, as `JSON.stringify` emits. -/
def hexDigitChar (n : Nat) : Char :=
  if n < 10 then Char.ofNat ('0'.toNat + n) else Char.ofNat ('a'.toNat + n - 10)

/-- How `JSON.stringify` escapes one character of a string. -/
def escapeChar (c : Char) : List Char :=
  if c = '"' then ['\\', '"']
  else if c = '\\' then ['\\', '\\']
  else if c = '\x08' then ['\\', 'b']
  else if c = '\x09' then ['\\', 't']
  else if c = '\x0a' then ['\\', 'n']
  else if c = '\x0c' then ['\\', 'f']
  else if c = '\x0d' then ['\\', 'r']
  else if c.toNat < 0x20 then
    ['\\', 'u', '0', '0', hexDigitChar (c.toNat / 16), hexDigitChar (c.toNat % 16)]
  else [c]

/-- A JSON string literal: quote, escaped body, quote. -/
def encodeJsonString (s : String) : List Char :=
  '"' :: (s.data.map escapeChar).flatten ++ ['"']

/-- Output of `JSON.stringify` on one text/date object. -/
def stringifyEntry (e : Entry) : List Char :=
  '{' :: encodeJsonString "text" ++ ':' :: encodeJsonString e.text ++
  ',' :: encodeJsonString "date" ++ ':' :: encodeJsonString e.date ++ ['}']

/-- Comma-separated entry objects (array body). -/
def stringifyLogItems : Log → List Char
  | [] => []
  | [e] => stringifyEntry e
  | e :: rest => stringifyEntry e ++ ',' :: stringifyLogItems rest

/-- Output of `JSON.stringify` on the whole entry array. -/
def stringifyLog (l : Log) : List Char :=
  '[' :: stringifyLogItems l ++ [']']

/-- The `Json` value denoting one entry. -/
def entryToJson (e : Entry) : Json :=
  Json.obj [("text", Json.str e.text), ("date", Json.str e.date)]

/-- The `Json` value denoting a log. -/
def logToJson (l : Log) : Json :=
  Json.arr (l.map entryToJson)

/-- Decode one entry object back from `Json` (shape produced by
`entryToJson`). -/
def entryOfJson : Json → Option Entry
  | Json.obj [("text", Json.str t), ("date", Json.str d)] => some { text := t, date := d }
  | _ => none

/-- Decode a list of entry objects. -/
def entriesOfJsonList : List Json → Option Log
  | [] => some []
  | j :: rest =>
    match entryOfJson j, entriesOfJsonList rest with
    | some e, some l => some (e :: l)
    | _, _ => none

/-- Decode a log back from `Json`. -/
def entriesOfJson : Json → Option Log
  | Json.arr es => entriesOfJsonList es
  | _ => none

/-! ## `JSON.parse`

A parser over `List Char` following the ECMA-404 grammar: a value
surrounded by optional whitespace; strings with the standard escapes;
numbers `-?(0|[1-9][0-9]*)(.[0-9]+)?([eE][+-]?[0-9]+)?`.  The mutual
recursion over nested values uses explicit fuel; `jsonParse` supplies
`length + 1`, which is enough for every parsable input because each
nesting step consumes at least one character.  (`\uXXXX` escapes naming
surrogate code points map to the null character here --- Lean strings hold
scalar values only --- which does not change what the parser accepts.) -/

/-- JSON insignificant whitespace. -/
def isJsonWs (c : Char) : Bool :=
  c == ' ' || c == '\x09' || c == '\x0a' || c == '\x0d'

/-- Skip insignificant whitespace. -/
def skipWs : List Char → List Char
  | [] => []
  | c :: rest => if isJsonWs c then skipWs rest else c :: rest

/-- Value of one hex digit. -/
def hexVal (c : Char) : Option Nat :=
  if '0' ≤ c ∧ c ≤ '9' then some (c.toNat - '0'.toNat)
  else if 'a' ≤ c ∧ c ≤ 'f' then some (c.toNat - 'a'.toNat + 10)
  else if 'A' ≤ c ∧ c ≤ 'F' then some (c.toNat - 'A'.toNat + 10)
  else none

/-- Single-character escapes after a backslash. -/
def escChar (c : Char) : Option Char :=
  if c = '"' then some '"'
  else if c = '\\' then some '\\'
  else if c = '/' then some '/'
  else if c = 'b' then some '\x08'
  else if c = 'f' then some '\x0c'
  else if c = 'n' then some '\x0a'
  else if c = 'r' then some '\x0d'
  else if c = 't' then some '\x09'
  else none

/-- Parse what follows a backslash inside a string literal. -/
def parseEsc : List Char → Option (Char × List Char)
  | [] => none
  | e :: r =>
    if e = 'u' then
      match r with
      | h1 :: h2 :: h3 :: h4 :: r2 =>
        match hexVal h1, hexVal h2, hexVal h3, hexVal h4 with
        | some a, some b, some c, some d =>
          some (Char.ofNat ((((a * 16 + b) * 16 + c) * 16) + d), r2)
        | _, _, _, _ => none
      | _ => none
    else (escChar e).map fun ec => (ec, r)

/-- Parse the body of a string literal (after the opening quote) up to and
including the closing quote.  Fuel bounds the number of produced
characters; each step consumes at least one input character, so
`input.length + 1` is always enough. -/
def parseStringBodyF : Nat → List Char → Option (List Char × List Char)
  | 0, _ => none
  | _ + 1, [] => none
  | fuel + 1, c :: rest =>
    if c = '"' then some ([], rest)
    else if c = '\\' then
      match parseEsc rest with
      | some (ec, r) =>
        match parseStringBodyF fuel r with
        | some (cs, r2) => some (ec :: cs, r2)
        | none => none
      | none => none
    else if c.toNat < 0x20 then none
    else
      match parseStringBodyF fuel rest with
      | some (cs, r2) => some (c :: cs, r2)
      | none => none

/-- Parse a JSON string literal (expects the opening quote first). -/
def parseJString : List Char → Option (String × List Char)
  | [] => none
  | c :: rest =>
    if c = '"' then
      match parseStringBodyF (rest.length + 1) rest with
      | some (cs, r) => some (⟨cs⟩, r)
      | none => none
    else none

/-- Parse the integer part of a JSON number: `0` or `[1-9][0-9]*`. -/
def parseIntPart : List Char → Option (List Char × List Char)
  | [] => none
  | c :: rest =>
    if c = '0' then some ([c], rest)
    else if '1' ≤ c ∧ c ≤ '9' then
      some (c :: rest.takeWhile Char.isDigit, rest.dropWhile Char.isDigit)
    else none

/-- Parse the optional fraction part `.[0-9]+`; `none` means the input is
not a valid number continuation. -/
def parseFracPart : List Char → Option (List Char × List Char)
  | [] => some ([], [])
  | c :: rest =>
    if c = '.' then
      let ds := rest.takeWhile Char.isDigit
      if ds = [] then none else some ('.' :: ds, rest.dropWhile Char.isDigit)
    else some ([], c :: rest)

/-- Parse the optional exponent part `[eE][+-]?[0-9]+`. -/
def parseExpPart : List Char → Option (List Char × List Char)
  | [] => some ([], [])
  | c :: rest =>
    if c = 'e' ∨ c = 'E' then
      match rest with
      | s :: rest2 =>
        if s = '+' ∨ s = '-' then
          let ds := rest2.takeWhile Char.isDigit
          if ds = [] then none
          else some (c :: s :: ds, rest2.dropWhile Char.isDigit)
        else
          let ds := rest.takeWhile Char.isDigit
          if ds = [] then none
          else some (c :: ds, rest.dropWhile Char.isDigit)
      | [] => none
    else some ([], c :: rest)

/-- Parse a JSON number, returning its literal text. -/
def parseNumber (input : List Char) : Option (String × List Char) :=
  let signed : Option (List Char × List Char) :=
    match input with
    | c :: rest =>
      if c = '-' then
        match parseIntPart rest with
        | some (ds, r) => some ('-' :: ds, r)
        | none => none
      else parseIntPart input
    | [] => none
  match signed with
  | some (ds, r) =>
    match parseFracPart r with
    | some (fs, r2) =>
      match parseExpPart r2 with
      | some (es, r3) => some (⟨ds ++ fs ++ es⟩, r3)
      | none => none
    | none => none
  | none => none

mutual

/-- Parse one JSON value (leading whitespace allowed). -/
def parseValue : Nat → List Char → Option (Json × List Char)
  | 0, _ => none
  | fuel + 1, input =>
    match skipWs input with
    | [] => none
    | c :: rest =>
      if c = '"' then
        match parseJString (c :: rest) with
        | some (s, r) => some (Json.str s, r)
        | none => none
      else if c = '[' then
        match skipWs rest with
        | [] => none
        | c2 :: r2 =>
          if c2 = ']' then some (Json.arr [], r2)
          else
            match parseElems fuel (c2 :: r2) with
            | some (es, r) => some (Json.arr es, r)
            | none => none
      else if c = '{' then
        match skipWs rest with
        | [] => none
        | c2 :: r2 =>
          if c2 = '}' then some (Json.obj [], r2)
          else
            match parseMembers fuel (c2 :: r2) with
            | some (ms, r) => some (Json.obj ms, r)
            | none => none
      else if c = 't' then
        match rest with
        | 'r' :: 'u' :: 'e' :: r => some (Json.bool true, r)
        | _ => none
      else if c = 'f' then
        match rest with
        | 'a' :: 'l' :: 's' :: 'e' :: r => some (Json.bool false, r)
        | _ => none
      else if c = 'n' then
        match rest with
        | 'u' :: 'l' :: 'l' :: r => some (Json.null, r)
        | _ => none
      else
        match parseNumber (c :: rest) with
        | some (lit, r) => some (Json.num lit, r)
        | none => none

/-- Parse the non-empty element list of an array, up to and including the
closing bracket. -/
def parseElems : Nat → List Char → Option (List Json × List Char)
  | 0, _ => none
  | fuel + 1, input =>
    match parseValue fuel input with
    | none => none
    | some (j, r) =>
      match skipWs r with
      | [] => none
      | c2 :: r2 =>
        if c2 = ',' then
          match parseElems fuel r2 with
          | some (es, r3) => some (j :: es, r3)
          | none => none
        else if c2 = ']' then some ([j], r2)
        else none

/-- Parse the non-empty member list of an object, up to and including the
closing brace. -/
def parseMembers : Nat → List Char → Option (List (String × Json) × List Char)
  | 0, _ => none
  | fuel + 1, input =>
    match parseJString (skipWs input) with
    | none => none
    | some (k, r) =>
      match skipWs r with
      | [] => none
      | c2 :: r2 =>
        if c2 = ':' then
          match parseValue fuel r2 with
          | none => none
          | some (v, r3) =>
            match skipWs r3 with
            | [] => none
            | c3 :: r4 =>
              if c3 = ',' then
                match parseMembers fuel r4 with
                | some (ms, r5) => some ((k, v) :: ms, r5)
                | none => none
              else if c3 = '}' then some ([(k, v)], r4)
              else none
        else none

end

/-- Model of `JSON.parse`: one value, optional surrounding whitespace, nothing
else; throws (here: `none`) on anything that does not fit. -/
def jsonParse (s : String) : Option Json :=
  match parseValue (s.length + 1) s.data with
  | some (j, rest) => if skipWs rest = [] then some j else none
  | none => none

/-! ## Outcomes of the event handlers

Each handler is modelled as a pure function from the state it reads (the
persisted log, the input field, the dialog answer) to a record of its
observable effects: the persisted log afterwards, whether `savePunchData`
was called, the input field afterwards, alerts raised and downloads
triggered. -/

/-- Effects of the form-submit handler. -/
structure SubmitResult where
  log : Log
  input : String
  saved : Bool
deriving DecidableEq, Repr

/-- A triggered file download. -/
structure Download where
  content : String
  filename : String
deriving DecidableEq, Repr

/-- Effects of the export-button handler. -/
structure ExportResult where
  log : Log
  alerts : List String
  download : Option Download
deriving DecidableEq, Repr

/-- Effects of one `renderPunchList` call: the rows displayed (top to
bottom, each showing the text and date of that entry) and the storage side:
the persisted log afterwards and whether any save happened. -/
structure RenderResult where
  rows : List Entry
  log : Log
  saved : Bool
deriving DecidableEq, Repr

/-- Effects of the clear-all handler. -/
structure ClearResult where
  log : Log
  saved : Bool
deriving DecidableEq, Repr

/-! ## Variant A: `打卡工具/script.js` -/

namespace VarA

/-- Translation of `getPunchData`: it reads the raw value stored at the
fixed key and returns `data ? JSON.parse(data) : []`.  The stored value
is `none` when the key is absent; a falsy raw value (absent or the empty
string) yields the empty array; otherwise the `JSON.parse` outcome is
returned, a parse failure propagating as a thrown error. -/
def getPunchData (stored : Option String) : Except Unit Json :=
  match stored with
  | none => Except.ok (Json.arr [])
  | some data =>
    if data = "" then Except.ok (Json.arr [])
    else
      match jsonParse data with
      | some j => Except.ok j
      | none => Except.error ()

/-- Translation of `savePunchData`: the raw string written at the fixed
key, namely the `JSON.stringify` output for the list. -/
def savePunchData (data : Log) : String :=
  ⟨stringifyLog data⟩

/-- Translation of `renderPunchList`: clears the list element and appends one `li` per
entry of `data.reverse()` (most recent first).  `reverse()` mutates only
the transient in-memory array; no `savePunchData` call occurs, so the
persisted log is unchanged. -/
def renderPunchList (data : Log) : RenderResult :=
  { rows := data.reverse, log := data, saved := false }

/-- The `punchForm` submit listener: trim the input; a falsy (empty)
trimmed value returns with no effect; otherwise push `{text, date}` onto
the loaded log, save it and clear the input.  `dateStr` is the
locale-formatted timestamp computed at submit time. -/
def submitHandler (data : Log) (inputValue : String) (dateStr : String) : SubmitResult :=
  let text := jsTrim inputValue
  if text = "" then { log := data, input := inputValue, saved := false }
  else
    { log := data ++ [{ text := text, date := dateStr }]
      input := ""
      saved := true }

/-- The export line for entry `item` at 0-based index `idx`:
`【idx+1】date：text` plus a newline. -/
def exportLine (idx : Nat) (item : Entry) : String :=
  "【" ++ toString (idx + 1) ++ "】" ++ item.date ++ "：" ++ item.text ++ "\n"

/-- Accumulation of the export lines over `data.forEach`, starting from
the empty string. -/
def exportContent (data : Log) : String :=
  data.enum.foldl (fun content p => content ++ exportLine p.1 p.2) ""

/-- The `exportBtn` click listener: on an empty log, alert once and stop
(no blob, URL or anchor is created); otherwise build the report and
trigger a download of `punch.txt`.  Neither branch saves. -/
def exportHandler (data : Log) : ExportResult :=
  if data.length = 0 then
    { log := data, alerts := ["暂无打卡数据可导出！"], download := none }
  else
    { log := data
      alerts := []
      download := some { content := exportContent data, filename := "punch.txt" } }

end VarA

/-! ## Variant B: the unnamed richer variant (`src/unnamed/part_000`) -/

namespace VarB

/-- Translation of `getPunchData` — same text as variant A. -/
def getPunchData (stored : Option String) : Except Unit Json :=
  match stored with
  | none => Except.ok (Json.arr [])
  | some data =>
    if data = "" then Except.ok (Json.arr [])
    else
      match jsonParse data with
      | some j => Except.ok j
      | none => Except.error ()

/-- Translation of `savePunchData` — same text as variant A. -/
def savePunchData (data : Log) : String :=
  ⟨stringifyLog data⟩

/-- Translation of `renderPunchList`: iterates a reversed copy of the list
(the loaded `data` keeps insertion order for the delete closures);
displays most recent first, performs no save. -/
def renderPunchList (data : Log) : RenderResult :=
  { rows := data.reverse, log := data, saved := false }

/-- Translation of the delete-button handler for the row at display index `idx` (0-based over the
reversed list): computes `originIdx = data.length - 1 - idx`, removes one
element there with `splice`, saves and re-renders.  The resulting
persisted log is returned. -/
def deleteHandler (data : Log) (idx : Nat) : Log :=
  let originIdx := data.length - 1 - idx
  data.eraseIdx originIdx

/-- The `punchForm` submit listener — same text as variant A. -/
def submitHandler (data : Log) (inputValue : String) (dateStr : String) : SubmitResult :=
  let text := jsTrim inputValue
  if text = "" then { log := data, input := inputValue, saved := false }
  else
    { log := data ++ [{ text := text, date := dateStr }]
      input := ""
      saved := true }

/-- Export line — same text as variant A. -/
def exportLine (idx : Nat) (item : Entry) : String :=
  "【" ++ toString (idx + 1) ++ "】" ++ item.date ++ "：" ++ item.text ++ "\n"

/-- Export content accumulation — same text as variant A. -/
def exportContent (data : Log) : String :=
  data.enum.foldl (fun content p => content ++ exportLine p.1 p.2) ""

/-- The `exportBtn` click listener — same text as variant A. -/
def exportHandler (data : Log) : ExportResult :=
  if data.length = 0 then
    { log := data, alerts := ["暂无打卡数据可导出！"], download := none }
  else
    { log := data
      alerts := []
      download := some { content := exportContent data, filename := "punch.txt" } }

/-- The `clearAllBtn` click listener: on a confirmed dialog, save the
empty list and re-render; on a declined dialog, do nothing. -/
def clearAllHandler (data : Log) (confirmed : Bool) : ClearResult :=
  if confirmed then { log := [], saved := true }
  else { log := data, saved := false }

end VarB

/-! ## Helper lemmas -/

/-- Joining a non-empty list of strings peels off its head. -/
theorem string_join_cons (a : String) (l : List String) :
    String.join (a :: l) = a ++ String.join l := by
  apply String.ext
  simp [String.join_eq, String.data_append]

/-- Folding `content += line` over an enumerated list, from any starting
accumulator, concatenates the lines onto the accumulator. -/
theorem foldl_exportLine_enumFrom (l : Log) : ∀ (n : Nat) (s : String),
    (List.enumFrom n l).foldl (fun content p => content ++ VarA.exportLine p.1 p.2) s
      = s ++ String.join ((List.enumFrom n l).map fun p => VarA.exportLine p.1 p.2) := by
  induction l with
  | nil => intro n s; simp [String.join]
  | cons e rest ih =>
    intro n s
    rw [List.enumFrom_cons, List.foldl_cons, ih, List.map_cons, string_join_cons,
      String.append_assoc]

/-- Equality of `exportContent` with the line-by-line concatenation in insertion
order. -/
theorem exportContent_eq_join (l : Log) :
    VarA.exportContent l
      = String.join (l.enum.map fun p => VarA.exportLine p.1 p.2) := by
  have h := foldl_exportLine_enumFrom l 0 ""
  simpa [VarA.exportContent, List.enum] using h

/-! ## Claims -/

/-- C1: Submit handler contract — in both variants, if the trimmed input
is empty the handler is a silent no-op (persisted log, input field and
save flag untouched); otherwise it appends exactly one entry
`{text := trimmed input, date := timestamp}` at the end, persists the
result (length grows by one, last element is the new entry, the prefix
is the old log unchanged), and clears the input field. -/
theorem submit_contract (log : Log) (v d : String) :
    (jsTrim v = "" →
      VarA.submitHandler log v d = { log := log, input := v, saved := false } ∧
      VarB.submitHandler log v d = { log := log, input := v, saved := false }) ∧
    (jsTrim v ≠ "" →
      VarA.submitHandler log v d =
        { log := log ++ [{ text := jsTrim v, date := d }], input := "", saved := true } ∧
      VarB.submitHandler log v d =
        { log := log ++ [{ text := jsTrim v, date := d }], input := "", saved := true } ∧
      (VarA.submitHandler log v d).log.length = log.length + 1 ∧
      (VarA.submitHandler log v d).log.getLast? = some { text := jsTrim v, date := d } ∧
      (VarA.submitHandler log v d).log.take log.length = log) := by
  constructor
  · intro h
    constructor <;> simp [VarA.submitHandler, VarB.submitHandler, h]
  · intro h
    refine ⟨?_, ?_, ?_, ?_, ?_⟩ <;>
      simp [VarA.submitHandler, VarB.submitHandler, h, List.getLast?_concat]

/-- C1 witness: a whitespace-only submit is a no-op; submitting `" hi "`
onto the empty log appends `{text := "hi", date := "D"}` and clears the
input. -/
theorem submit_contract_witness :
    VarB.submitHandler [] "  " "D" = { log := [], input := "  ", saved := false } ∧
    VarA.submitHandler [] " hi " "D" =
      { log := [{ text := "hi", date := "D" }], input := "", saved := true } := by
  refine ⟨((submit_contract [] "  " "D").1 (by decide)).2, ?_⟩
  have h := ((submit_contract [] " hi " "D").2 (by decide)).1
  have ht : jsTrim " hi " = "hi" := by decide
  rw [ht] at h
  simpa using h

/-- C3: Positional delete (richer variant) — for a log of length `n` and
display index `idx < n` (rows shown in reverse insertion order), the
delete control removes exactly the entry at original index
`n - 1 - idx`: the persisted result is the prefix before it followed by
the suffix after it, one entry shorter; in particular deleting display
row 1 of `[e1, e2, e3]` (the row showing `e2`) leaves `[e1, e3]`. -/
theorem delete_positional (log : Log) (idx : Nat) (h : idx < log.length) :
    VarB.deleteHandler log idx =
      log.take (log.length - 1 - idx) ++ log.drop (log.length - idx) ∧
    (VarB.deleteHandler log idx).length = log.length - 1 ∧
    ∀ e1 e2 e3 : Entry, VarB.deleteHandler [e1, e2, e3] 1 = [e1, e3] := by
  refine ⟨?_, ?_, fun e1 e2 e3 => rfl⟩
  · rw [VarB.deleteHandler, List.eraseIdx_eq_take_drop_succ]
    have he : log.length - 1 - idx + 1 = log.length - idx := by omega
    rw [he]
  · rw [VarB.deleteHandler, List.length_eraseIdx]
    have he : log.length - 1 - idx < log.length := by omega
    simp [he]

/-- C3 witness: deleting display row 1 of a concrete three-entry log
removes the middle entry. -/
theorem delete_positional_witness :
    VarB.deleteHandler
        [{ text := "a", date := "1" }, { text := "b", date := "2" },
         { text := "c", date := "3" }] 1
      = [{ text := "a", date := "1" }, { text := "c", date := "3" }] := by
  have h := (delete_positional
    [{ text := "a", date := "1" }, { text := "b", date := "2" },
     { text := "c", date := "3" }] 1 (by decide)).2.2
  exact h { text := "a", date := "1" } { text := "b", date := "2" } { text := "c", date := "3" }

/-- C5: Reverse render order and render purity — in both variants,
`renderPunchList` displays exactly the entries of the log in reverse insertion
order (each row showing the text and date of that entry), leaves the persisted
log unchanged and performs no save; in particular `[e1, e2, e3]` renders
as `[e3, e2, e1]`. -/
theorem render_reverse_pure (log : Log) :
    VarA.renderPunchList log = { rows := log.reverse, log := log, saved := false } ∧
    VarB.renderPunchList log = { rows := log.reverse, log := log, saved := false } ∧
    (VarA.renderPunchList log).rows.length = log.length ∧
    ∀ e1 e2 e3 : Entry,
      (VarA.renderPunchList [e1, e2, e3]).rows = [e3, e2, e1] ∧
      (VarB.renderPunchList [e1, e2, e3]).rows = [e3, e2, e1] := by
  refine ⟨rfl, rfl, by simp [VarA.renderPunchList], fun e1 e2 e3 => ?_⟩
  constructor <;> simp [VarA.renderPunchList, VarB.renderPunchList]

/-- C6: Empty-export guard — in both variants, exporting an empty log
raises the empty-data alert exactly once, creates no download (no blob,
object URL or anchor), and leaves the persisted log unchanged. -/
theorem export_empty_guard :
    VarA.exportHandler [] =
      { log := [], alerts := ["暂无打卡数据可导出！"], download := none } ∧
    VarB.exportHandler [] =
      { log := [], alerts := ["暂无打卡数据可导出！"], download := none } ∧
    (VarA.exportHandler []).alerts.length = 1 ∧
    (VarB.exportHandler []).alerts.length = 1 :=
  ⟨rfl, rfl, rfl, rfl⟩

/-- C8: Clear-all (richer variant) — a confirmed dialog persists the
empty list (and a subsequent load of the saved value yields the empty
array); a declined dialog changes nothing and saves nothing. -/
theorem clear_all (log : Log) :
    VarB.clearAllHandler log true = { log := [], saved := true } ∧
    VarB.clearAllHandler log false = { log := log, saved := false } ∧
    VarB.getPunchData (some (VarB.savePunchData [])) = Except.ok (Json.arr []) :=
  ⟨rfl, rfl, rfl⟩

/-- C9: Variant equivalence — on every input, the operations the two
variants share (load, save, submit, export, render) produce identical
persisted state, identical effects and identical displayed rows. -/
theorem variant_equivalence :
    (∀ stored, VarA.getPunchData stored = VarB.getPunchData stored) ∧
    (∀ l, VarA.savePunchData l = VarB.savePunchData l) ∧
    (∀ log v d, VarA.submitHandler log v d = VarB.submitHandler log v d) ∧
    (∀ log, VarA.exportHandler log = VarB.exportHandler log) ∧
    (∀ log, VarA.renderPunchList log = VarB.renderPunchList log) :=
  ⟨fun _ => rfl, fun _ => rfl, fun _ _ _ => rfl, fun _ => rfl, fun _ => rfl⟩

/-- C10: Implicit empty-string stored value — in both variants, a stored
raw value `""` is falsy, so `getPunchData` returns the empty array
rather than raising a parse error. -/
theorem empty_string_load :
    VarA.getPunchData (some "") = Except.ok (Json.arr []) ∧
    VarB.getPunchData (some "") = Except.ok (Json.arr []) :=
  ⟨rfl, rfl⟩

/-- C7 counterexample: two present stored values that are not valid
serialized Entry-array data on which `getPunchData` raises no parse
error: the valid-JSON non-array `"5"` is returned as a number, and the
empty string is falsy and yields the empty array. -/
theorem malformed_counterexample :
    VarB.getPunchData (some "5") = Except.ok (Json.num "5") ∧
    VarA.getPunchData (some "5") = Except.ok (Json.num "5") ∧
    VarA.getPunchData (some "") = Except.ok (Json.arr []) :=
  ⟨rfl, rfl, rfl⟩

/-- C7 amended: in both variants, a present stored value that is
non-empty and fails to parse as JSON makes `getPunchData` propagate the
parse error with no recovery; a non-empty value that parses as JSON is
returned as-is with no Entry-array shape validation; an absent stored
value yields the empty array. -/
theorem malformed_propagation (s : String) (hs : s ≠ "") :
    (jsonParse s = none →
      VarA.getPunchData (some s) = Except.error () ∧
      VarB.getPunchData (some s) = Except.error ()) ∧
    (∀ j, jsonParse s = some j →
      VarA.getPunchData (some s) = Except.ok j ∧
      VarB.getPunchData (some s) = Except.ok j) ∧
    VarA.getPunchData none = Except.ok (Json.arr []) ∧
    VarB.getPunchData none = Except.ok (Json.arr []) := by
  refine ⟨fun h => ?_, fun j h => ?_, rfl, rfl⟩ <;>
    constructor <;> simp [VarA.getPunchData, VarB.getPunchData, hs, h]

/-- C7 witness: the unterminated value `"["` is non-empty, fails to
parse, and the failure propagates out of `getPunchData` in both
variants. -/
theorem malformed_propagation_witness :
    VarA.getPunchData (some "[") = Except.error () ∧
    VarB.getPunchData (some "[") = Except.error () :=
  (malformed_propagation "[" (by decide)).1 rfl

/-- C2: Export content — for every non-empty log, the export handler
triggers a download named `punch.txt` whose content is the concatenation,
in insertion order, of the 1-based-numbered line `【i】date：text`
followed by a newline, raising no alert and leaving the log unchanged;
the two-entry instance produces exactly `"【1】D1：A\n【2】D2：B\n"`. -/
theorem export_content (log : Log) (h : log ≠ []) :
    VarA.exportHandler log =
      { log := log
        alerts := []
        download := some { content := VarA.exportContent log, filename := "punch.txt" } } ∧
    VarB.exportHandler log = VarA.exportHandler log ∧
    VarA.exportContent log
      = String.join (log.enum.map fun p =>
          "【" ++ toString (p.1 + 1) ++ "】" ++ p.2.date ++ "：" ++ p.2.text ++ "\n") ∧
    VarA.exportContent [{ text := "A", date := "D1" }, { text := "B", date := "D2" }]
      = "【1】D1：A\n【2】D2：B\n" := by
  refine ⟨?_, rfl, exportContent_eq_join log, by decide⟩
  have hl : log.length ≠ 0 := by
    intro h0
    exact h (List.length_eq_zero.mp h0)
  simp [VarA.exportHandler, hl]

/-- C2 witness: exporting the concrete two-entry log yields the expected
file name and content. -/
theorem export_content_witness :
    VarA.exportHandler [{ text := "A", date := "D1" }, { text := "B", date := "D2" }] =
      { log := [{ text := "A", date := "D1" }, { text := "B", date := "D2" }]
        alerts := []
        download := some { content := "【1】D1：A\n【2】D2：B\n", filename := "punch.txt" } } := by
  have h := export_content [{ text := "A", date := "D1" }, { text := "B", date := "D2" }]
    (by decide)
  rw [h.1, h.2.2.2]

/-! ## Round-trip of `JSON.parse` over `JSON.stringify` output -/

/-- Reading back a hex digit recovers its value. -/
theorem hexVal_hexDigitChar : ∀ n < 16, hexVal (hexDigitChar n) = some n := by decide

/-- Skipping whitespace before a non-whitespace character is the
identity. -/
theorem skipWs_cons_of_not_ws (c : Char) (l : List Char) (h : isJsonWs c = false) :
    skipWs (c :: l) = c :: l := by
  simp [skipWs, h]

/-- Escaping never erases a character. -/
theorem length_le_length_flatten_escape (cs : List Char) :
    cs.length ≤ ((cs.map escapeChar).flatten).length := by
  induction cs with
  | nil => simp
  | cons c cs' ih =>
    have h1 : 1 ≤ (escapeChar c).length := by
      unfold escapeChar
      repeat' split
      all_goals simp
    simp only [List.map_cons, List.flatten_cons, List.length_append, List.length_cons]
    omega

/-- Parsing the escaped body of a string recovers the original characters
and stops at the closing quote, for any sufficient fuel. -/
theorem parseStringBodyF_encode (cs : List Char) : ∀ (fuel : Nat) (rest : List Char),
    cs.length < fuel →
    parseStringBodyF fuel ((cs.map escapeChar).flatten ++ '"' :: rest) = some (cs, rest) := by
  induction cs with
  | nil =>
    intro fuel rest h
    obtain ⟨f, rfl⟩ : ∃ f, fuel = f + 1 := ⟨fuel - 1, by omega⟩
    simp [parseStringBodyF]
  | cons c cs' ih =>
    intro fuel rest h
    obtain ⟨f, rfl⟩ : ∃ f, fuel = f + 1 := ⟨fuel - 1, by omega⟩
    have hlen : cs'.length < f := by simp at h; omega
    have ihf := ih f rest hlen
    simp only [List.map_cons, List.flatten_cons, List.append_assoc]
    by_cases h1 : c = '"'
    · subst h1; simp [escapeChar, parseStringBodyF, parseEsc, escChar, ihf]
    · by_cases h2 : c = '\\'
      · subst h2; simp [escapeChar, parseStringBodyF, parseEsc, escChar, ihf]
      · by_cases h3 : c = '\x08'
        · subst h3; simp [escapeChar, parseStringBodyF, parseEsc, escChar, ihf]
        · by_cases h4 : c = '\x09'
          · subst h4; simp [escapeChar, parseStringBodyF, parseEsc, escChar, ihf]
          · by_cases h5 : c = '\x0a'
            · subst h5; simp [escapeChar, parseStringBodyF, parseEsc, escChar, ihf]
            · by_cases h6 : c = '\x0c'
              · subst h6; simp [escapeChar, parseStringBodyF, parseEsc, escChar, ihf]
              · by_cases h7 : c = '\x0d'
                · subst h7; simp [escapeChar, parseStringBodyF, parseEsc, escChar, ihf]
                · by_cases h8 : c.toNat < 0x20
                  · have hd1 := hexVal_hexDigitChar (c.toNat / 16) (by omega)
                    have hd2 := hexVal_hexDigitChar (c.toNat % 16) (by omega)
                    have h0 : hexVal '0' = some 0 := by decide
                    have harith : c.toNat / 16 * 16 + c.toNat % 16 = c.toNat := by omega
                    simp [escapeChar, h1, h2, h3, h4, h5, h6, h7, h8, parseStringBodyF,
                      parseEsc, h0, hd1, hd2, ihf]
                    rw [harith, Char.ofNat_toNat]
                  · simp [escapeChar, h1, h2, h3, h4, h5, h6, h7, h8, parseStringBodyF, ihf]

/-- Rebuilding a string from its character data is the identity. -/
theorem string_mk_data (s : String) : String.mk s.data = s := rfl

/-- Normal form of an encoded string literal followed by anything. -/
theorem encode_append (s : String) (rest : List Char) :
    encodeJsonString s ++ rest
      = '"' :: ((s.data.map escapeChar).flatten ++ '"' :: rest) := by
  simp [encodeJsonString]

/-- A whole encoded string literal parses back to the string. -/
theorem parseJString_encode (s : String) (rest : List Char) :
    parseJString (encodeJsonString s ++ rest) = some (s, rest) := by
  rw [encode_append]
  have hlen : s.data.length
      < ((s.data.map escapeChar).flatten ++ '"' :: rest).length + 1 := by
    have h := length_le_length_flatten_escape s.data
    simp only [List.length_append, List.length_cons]
    omega
  have hbody := parseStringBodyF_encode s.data
    (((s.data.map escapeChar).flatten ++ '"' :: rest).length + 1) rest hlen
  simp only [parseJString]
  rw [if_pos trivial, hbody]

/-- A string value parses with any positive fuel. -/
theorem parseValue_string (s : String) (rest : List Char) :
    ∀ fuel, 1 ≤ fuel →
      parseValue fuel (encodeJsonString s ++ rest) = some (Json.str s, rest) := by
  intro fuel hf
  obtain ⟨f, rfl⟩ : ∃ f, fuel = f + 1 := ⟨fuel - 1, by omega⟩
  have hstr := parseJString_encode s rest
  rw [encode_append] at hstr ⊢
  have hws : isJsonWs '"' = false := rfl
  simp [parseValue, skipWs, hws, hstr]

/-- The last member of an object parses back, consuming the closing
brace. -/
theorem parseMembers_last (k v : String) (rest : List Char) :
    ∀ fuel, 2 ≤ fuel →
      parseMembers fuel (encodeJsonString k ++ ':' :: (encodeJsonString v ++ '}' :: rest))
        = some ([(k, Json.str v)], rest) := by
  intro fuel hf
  obtain ⟨f, rfl⟩ : ∃ f, fuel = f + 1 := ⟨fuel - 1, by omega⟩
  have hkey := parseJString_encode k (':' :: (encodeJsonString v ++ '}' :: rest))
  have hval := parseValue_string v ('}' :: rest) f (by omega)
  have hwsq : isJsonWs '"' = false := rfl
  have hwsc : isJsonWs ':' = false := rfl
  have hwsb : isJsonWs '}' = false := rfl
  simp only [parseMembers]
  rw [encode_append] at hkey ⊢
  simp [skipWs_cons_of_not_ws, hwsq, hwsc, hwsb, hkey, hval]

/-- The two members of a serialized entry object parse back, consuming
the closing brace. -/
theorem parseMembers_entry (e : Entry) (rest : List Char) :
    ∀ fuel, 3 ≤ fuel →
      parseMembers fuel
        (encodeJsonString "text" ++ ':' :: (encodeJsonString e.text ++
          ',' :: (encodeJsonString "date" ++ ':' :: (encodeJsonString e.date ++ '}' :: rest))))
        = some ([("text", Json.str e.text), ("date", Json.str e.date)], rest) := by
  intro fuel hf
  obtain ⟨f, rfl⟩ : ∃ f, fuel = f + 1 := ⟨fuel - 1, by omega⟩
  have hkey := parseJString_encode "text" (':' :: (encodeJsonString e.text ++
    ',' :: (encodeJsonString "date" ++ ':' :: (encodeJsonString e.date ++ '}' :: rest))))
  have hval := parseValue_string e.text (',' :: (encodeJsonString "date" ++
    ':' :: (encodeJsonString e.date ++ '}' :: rest))) f (by omega)
  have hrest := parseMembers_last "date" e.date rest f (by omega)
  have hwsq : isJsonWs '"' = false := rfl
  have hwsc : isJsonWs ':' = false := rfl
  have hwsm : isJsonWs ',' = false := rfl
  simp only [parseMembers]
  rw [encode_append] at hkey ⊢
  rw [skipWs_cons_of_not_ws _ _ hwsq, hkey]
  dsimp only
  rw [skipWs_cons_of_not_ws _ _ hwsc]
  dsimp only
  rw [hval]
  dsimp only
  rw [skipWs_cons_of_not_ws _ _ hwsm]
  dsimp only
  rw [hrest]
  rfl

/-- Normal form of a serialized entry followed by anything. -/
theorem stringifyEntry_append (e : Entry) (rest : List Char) :
    stringifyEntry e ++ rest
      = '{' :: (encodeJsonString "text" ++ ':' :: (encodeJsonString e.text ++
          ',' :: (encodeJsonString "date" ++ ':' :: (encodeJsonString e.date ++ '}' :: rest)))) := by
  simp [stringifyEntry, List.append_assoc]

/-- A serialized entry object parses back to its `Json` denotation. -/
theorem parseValue_entry (e : Entry) (rest : List Char) :
    ∀ fuel, 4 ≤ fuel →
      parseValue fuel (stringifyEntry e ++ rest) = some (entryToJson e, rest) := by
  intro fuel hf
  obtain ⟨f, rfl⟩ : ∃ f, fuel = f + 1 := ⟨fuel - 1, by omega⟩
  have hmem := parseMembers_entry e rest f (by omega)
  have hwsl : isJsonWs '{' = false := rfl
  have hwsq : isJsonWs '"' = false := rfl
  rw [stringifyEntry_append]
  simp only [parseValue]
  rw [skipWs_cons_of_not_ws _ _ hwsl]
  dsimp only
  rw [if_neg (by decide), if_neg (by decide), if_pos rfl]
  rw [encode_append] at hmem ⊢
  rw [skipWs_cons_of_not_ws _ _ hwsq]
  dsimp only
  rw [hmem]
  rfl

/-- Normal form of a serialized log followed by anything. -/
theorem stringifyLog_append (L : Log) (rest : List Char) :
    stringifyLog L ++ rest = '[' :: (stringifyLogItems L ++ ']' :: rest) := by
  simp [stringifyLog, List.append_assoc]

/-- The serialized element list of a non-empty log parses back, consuming
the closing bracket. -/
theorem parseElems_log (L : Log) :
    ∀ (rest : List Char) (fuel : Nat), L ≠ [] → L.length + 4 ≤ fuel →
      parseElems fuel (stringifyLogItems L ++ ']' :: rest)
        = some (L.map entryToJson, rest) := by
  induction L with
  | nil => intro rest fuel hL _; cases hL rfl
  | cons e L' ih =>
    intro rest fuel _ hf
    obtain ⟨f, rfl⟩ : ∃ f, fuel = f + 1 := ⟨fuel - 1, by omega⟩
    have hwsb : isJsonWs ']' = false := rfl
    cases L' with
    | nil =>
      have hent := parseValue_entry e (']' :: rest) f (by simp at hf; omega)
      simp only [stringifyLogItems, parseElems]
      rw [hent]
      dsimp only
      rw [skipWs_cons_of_not_ws _ _ hwsb]
      dsimp only
      rw [if_neg (by decide), if_pos rfl]
      rfl
    | cons e2 L'' =>
      have hf2 : L''.length + 6 ≤ f + 1 := by simpa using hf
      have hent := parseValue_entry e
        (',' :: (stringifyLogItems (e2 :: L'') ++ ']' :: rest)) f (by omega)
      have hrest := ih rest f (by simp) (by simp; omega)
      have hwsm : isJsonWs ',' = false := rfl
      simp only [stringifyLogItems, parseElems, List.append_assoc, List.cons_append]
      rw [hent]
      dsimp only
      rw [skipWs_cons_of_not_ws _ _ hwsm]
      dsimp only
      rw [if_pos rfl, hrest]
      rfl

/-- A serialized log parses back to its `Json` denotation. -/
theorem parseValue_stringifyLog (L : Log) (rest : List Char) :
    ∀ fuel, L.length + 5 ≤ fuel →
      parseValue fuel (stringifyLog L ++ rest) = some (logToJson L, rest) := by
  intro fuel hf
  obtain ⟨f, rfl⟩ : ∃ f, fuel = f + 1 := ⟨fuel - 1, by omega⟩
  have hwsl : isJsonWs '[' = false := rfl
  cases L with
  | nil =>
    have hwsr : isJsonWs ']' = false := rfl
    rw [stringifyLog_append]
    simp only [stringifyLogItems, List.nil_append, parseValue]
    rw [skipWs_cons_of_not_ws _ _ hwsl]
    dsimp only
    rw [if_neg (by decide), if_pos rfl]
    rw [skipWs_cons_of_not_ws _ _ hwsr]
    dsimp only
    rw [if_pos rfl]
    rfl
  | cons e L' =>
    have hshape : ∃ T, stringifyLogItems (e :: L') ++ ']' :: rest = '{' :: T := by
      cases L' with
      | nil => exact ⟨_, stringifyEntry_append e (']' :: rest)⟩
      | cons e2 L'' =>
        have h1 : stringifyLogItems (e :: e2 :: L'') ++ ']' :: rest
            = stringifyEntry e ++ ',' :: (stringifyLogItems (e2 :: L'') ++ ']' :: rest) := by
          simp only [stringifyLogItems, List.append_assoc, List.cons_append]
        exact ⟨_, h1.trans (stringifyEntry_append e
          (',' :: (stringifyLogItems (e2 :: L'') ++ ']' :: rest)))⟩
    obtain ⟨T, hT⟩ := hshape
    have hwso : isJsonWs '{' = false := rfl
    have helems := parseElems_log (e :: L') rest f (by simp) (by simp at hf ⊢; omega)
    rw [stringifyLog_append]
    simp only [parseValue]
    rw [skipWs_cons_of_not_ws _ _ hwsl]
    dsimp only
    rw [if_neg (by decide), if_pos rfl]
    rw [hT, skipWs_cons_of_not_ws _ _ hwso]
    dsimp only
    rw [if_neg (by decide), ← hT, helems]
    rfl

/-- An encoded string literal has at least its two quotes. -/
theorem two_le_length_encode (s : String) : 2 ≤ (encodeJsonString s).length := by
  simp [encodeJsonString]

/-- A serialized entry is at least three characters long. -/
theorem three_le_length_stringifyEntry (e : Entry) :
    3 ≤ (stringifyEntry e).length := by
  have h1 := two_le_length_encode "text"
  have h2 := two_le_length_encode e.text
  simp only [stringifyEntry, List.length_append, List.length_cons]
  omega

/-- The serialized items of a non-empty log outgrow the log by at least
two characters. -/
theorem length_stringifyLogItems (L : Log) :
    L ≠ [] → L.length + 2 ≤ (stringifyLogItems L).length := by
  induction L with
  | nil => intro h; cases h rfl
  | cons e L' ih =>
    intro _
    cases L' with
    | nil =>
      have := three_le_length_stringifyEntry e
      simpa [stringifyLogItems] using this
    | cons e2 L'' =>
      have h1 := three_le_length_stringifyEntry e
      have h2 := ih (by simp)
      simp only [stringifyLogItems, List.length_append, List.length_cons] at h2 ⊢
      omega

/-- Parsing the `JSON.stringify` output recovers the `Json` denotation
of the log: the fuel `length + 1` supplied by `jsonParse` suffices. -/
theorem jsonParse_stringifyLog (L : Log) :
    jsonParse (String.mk (stringifyLog L)) = some (logToJson L) := by
  cases L with
  | nil => rfl
  | cons e L' =>
    have hitems := length_stringifyLogItems (e :: L') (by simp)
    have hlen : (e :: L').length + 5 ≤ (String.mk (stringifyLog (e :: L'))).length + 1 := by
      have hdata : (String.mk (stringifyLog (e :: L'))).length
          = (stringifyLog (e :: L')).length := rfl
      rw [hdata]
      simp only [stringifyLog, List.length_cons, List.length_append] at hitems ⊢
      omega
    have hval := parseValue_stringifyLog (e :: L') []
      ((String.mk (stringifyLog (e :: L'))).length + 1) hlen
    rw [List.append_nil] at hval
    simp only [jsonParse]
    rw [hval]
    rfl

/-- Decoding the `Json` denotation of a log recovers the log. -/
theorem entriesOfJson_logToJson (L : Log) : entriesOfJson (logToJson L) = some L := by
  induction L with
  | nil => rfl
  | cons e L' ih =>
    have ih2 : entriesOfJsonList (L'.map entryToJson) = some L' := ih
    simp only [logToJson, List.map_cons, entriesOfJson, entriesOfJsonList]
    rw [ih2]
    rfl

/-- C4: Round-trip — in both variants, saving any entry list with
`savePunchData` and reading it back with `getPunchData` raises no error
and returns exactly the saved list: the parsed value is the `Json`
denotation of the list, which decodes back to the list itself, order and content
preserved. -/
theorem save_load_roundtrip (L : Log) :
    VarA.getPunchData (some (VarA.savePunchData L)) = Except.ok (logToJson L) ∧
    VarB.getPunchData (some (VarB.savePunchData L)) = Except.ok (logToJson L) ∧
    entriesOfJson (logToJson L) = some L := by
  have hparse : jsonParse (String.mk (stringifyLog L)) = some (logToJson L) :=
    jsonParse_stringifyLog L
  have hne : String.mk (stringifyLog L) ≠ "" := by
    intro h
    have hd : stringifyLog L = ("" : String).data := congrArg String.data h
    simp [stringifyLog] at hd
  refine ⟨?_, ?_, entriesOfJson_logToJson L⟩ <;>
    simp [VarA.getPunchData, VarA.savePunchData, VarB.getPunchData, VarB.savePunchData,
      hne, hparse]
